import Mathlib

/-!
Verification of the activity-tracker frontend and of the backend core it
invokes.  The TypeScript sources under `src/` are shallowly embedded:

* `Analytics.fetchStats` post-processing (category map, accumulated total,
  percentages, sort) from the Analytics component;
* the duplicated `formatDuration` helpers, `getDayStart` / `getDayEnd`,
  `isUnproductiveApp`, and the Settings handlers' local-state updates;
* the backend engine (Interval Merger, Store, Aggregator) is not part of
  the repository snapshot — only its Tauri command callers are — so those
  operations are modelled from the specification text, each such definition
  marked `Modelled from the spec:` in its doc comment.

Machine numbers: durations crossing the IPC boundary are whole seconds and
timestamps are millisecond instants, so they are embedded as `Nat`; the
percentage arithmetic of the frontend (IEEE doubles on small integers,
exact for these magnitudes) is embedded as exact `ℚ` arithmetic.
-/

/-- `Category` record as used by the frontend (`types/activity.ts`). -/
structure TCategory where
  name : String
  color : String
  is_productive : Bool
deriving DecidableEq, Repr

/-- One entry of `DailyStats.top_applications` (`ApplicationStats` in
`types/activity.ts`), restricted to the fields the Analytics code reads. -/
structure AppStat where
  application : String
  total_duration : Nat
  category : Option TCategory
deriving DecidableEq, Repr

/-- `CategoryAnalytics` record from the Analytics component. -/
structure CategoryAnalytics where
  name : String
  color : String
  totalTime : Nat
  percentage : ℚ
deriving DecidableEq, Repr

/-- `categoryMap.set(name, existing ⊕ duration)` of `fetchStats`: the JS
`Map` keeps insertion order and updating an existing key keeps its slot, so
the map is embedded as an association list in insertion order.  A fresh
entry is seeded with the current category's colour and `percentage: 0`,
exactly as the `||` default object does. -/
def addToMap (c : TCategory) (d : Nat) : List CategoryAnalytics → List CategoryAnalytics
  | [] => [⟨c.name, c.color, d, 0⟩]
  | e :: rest =>
    if e.name = c.name then { e with totalTime := e.totalTime + d } :: rest
    else e :: addToMap c d rest

/-- The `result.top_applications.forEach` loop of `fetchStats`: apps with a
resolved category are folded into the category map and into the running
`totalTime`; apps whose `category` is absent are skipped entirely. -/
def processApps : List CategoryAnalytics × Nat → List AppStat → List CategoryAnalytics × Nat
  | acc, [] => acc
  | (m, tot), app :: rest =>
    match app.category with
    | none => processApps (m, tot) rest
    | some c => processApps (addToMap c app.total_duration m, tot + app.total_duration) rest

/-- The percentage pass of `fetchStats`:
`percentage: totalTime > 0 ? (cat.totalTime / totalTime) * 100 : 0`. -/
def withPercentages (tot : Nat) (m : List CategoryAnalytics) : List CategoryAnalytics :=
  m.map fun cat =>
    { cat with percentage := if 0 < tot then (cat.totalTime : ℚ) / (tot : ℚ) * 100 else 0 }

/-- Stable insertion step: `x` is placed before the first element `y` with
`le x y = true`, after every element it must follow. -/
def insOrd (le : α → α → Bool) (x : α) : List α → List α
  | [] => [x]
  | y :: ys => if le x y then x :: y :: ys else y :: insOrd le x ys

/-- Stable sort (insertion sort), the reference model for ECMA-262
`Array.prototype.sort`, which is required to be stable. -/
def sortOrd (le : α → α → Bool) : List α → List α
  | [] => []
  | x :: xs => insOrd le x (sortOrd le xs)

/-- The comparator `(a, b) => b.totalTime - a.totalTime` of `fetchStats`:
under a stable sort, `a` stays before `b` exactly when the comparator is
`≤ 0`, i.e. when `b.totalTime ≤ a.totalTime`. -/
def jsCatLe (a b : CategoryAnalytics) : Bool :=
  decide (b.totalTime ≤ a.totalTime)

/-- `categories.sort((a, b) => b.totalTime - a.totalTime)` of `fetchStats`. -/
def sortCategories (m : List CategoryAnalytics) : List CategoryAnalytics :=
  sortOrd jsCatLe m

/-- The whole category pipeline of `fetchStats` lines 44–70: build the map
and the accumulated total, compute percentages, sort descending. -/
def categoryStats (apps : List AppStat) : List CategoryAnalytics :=
  let acc := processApps ([], 0) apps
  sortCategories (withPercentages acc.2 acc.1)

/-- The accumulated `totalTime` of the `forEach` loop, used as the
denominator of every category percentage. -/
def analyticsTotal (apps : List AppStat) : Nat :=
  (processApps ([], 0) apps).2

/-- `formatDuration` as duplicated in the unnamed frontend `App` file
(part_000 lines 11–19): `Hh Mm` when an hour is reached, else `Mm`. -/
def formatDurationApp0 (seconds : Nat) : String :=
  let hours := seconds / 3600
  let minutes := seconds % 3600 / 60
  if 0 < hours then toString hours ++ "h " ++ toString minutes ++ "m"
  else toString minutes ++ "m"

/-- `formatDuration` from `src/src/App.tsx` lines 43–51 (textually the same
algorithm as the copy in part_000). -/
def formatDurationAppTsx (seconds : Nat) : String :=
  let hours := seconds / 3600
  let minutes := seconds % 3600 / 60
  if 0 < hours then toString hours ++ "h " ++ toString minutes ++ "m"
  else toString minutes ++ "m"

/-- `formatDuration` from `timeUtils` (part_001 lines 180–194): `Hh Mm`,
else `Mm Ss`, else `Ss`. -/
def formatDurationUtils (seconds : Nat) : String :=
  let hours := seconds / 3600
  let minutes := seconds % 3600 / 60
  if 0 < hours then toString hours ++ "h " ++ toString minutes ++ "m"
  else
    let remainingSeconds := seconds % 60
    if 0 < minutes then toString minutes ++ "m " ++ toString remainingSeconds ++ "s"
    else toString remainingSeconds ++ "s"

/-- Milliseconds per local calendar day (the model uses a fixed-offset
local clock, so days are uniform ranges of millisecond instants). -/
def msPerDay : Nat := 86400000

/-- `getDayStart` (timeUtils): `setHours(0, 0, 0, 0)` zeroes the local
time-of-day, i.e. rounds the instant down to local midnight. -/
def getDayStart (t : Nat) : Nat := t / msPerDay * msPerDay

/-- `getDayEnd` (timeUtils): `setHours(23, 59, 59, 999)` moves the instant
to the last representable millisecond of the same local day. -/
def getDayEnd (t : Nat) : Nat := getDayStart t + (msPerDay - 1)

/-- Inclusive-exclusive range membership `[from, to)`, the range semantics
the spec prescribes for every range query. -/
def inRangeIE (lo hi t : Nat) : Prop := lo ≤ t ∧ t < hi

instance (lo hi t : Nat) : Decidable (inRangeIE lo hi t) := by
  unfold inRangeIE; infer_instance

/-- The hard-coded unproductive-application list of `activityService`
(part_001 lines 234–243). -/
def unproductiveApps : List String :=
  ["Finder", "System Settings", "System Preferences", "Notification Center",
   "Dock", "Spotlight", "Menu Bar"]

/-- `isUnproductiveApp` (part_001 lines 245–247): exact, case-sensitive
membership in the hard-coded set. -/
def isUnproductiveApp (appName : String) : Bool :=
  unproductiveApps.contains appName

/-- `Category` record of the Settings component (part_003). -/
structure SCategory where
  id : String
  name : String
  color : String
  is_productive : Bool
deriving DecidableEq, Repr

/-- The local-state update of `handleUpdateCategory` (part_003 line 83):
`categories.map((c) => (c.id === category.id ? category : c))`. -/
def updateCategories (categories : List SCategory) (category : SCategory) : List SCategory :=
  categories.map fun c => if c.id = category.id then category else c

/-- The local-state update of `handleDeleteCategory` (part_003 line 94):
`categories.filter((c) => c.id !== id)`. -/
def deleteCategoryLocal (categories : List SCategory) (id : String) : List SCategory :=
  categories.filter fun c => c.id ≠ id

/-- A point sample as produced by the Sampler (spec §3): timestamp in
milliseconds, foreground application, window title, idle flag. -/
structure Sample where
  ts : Nat
  app : String
  title : String
  idle : Bool
deriving DecidableEq, Repr

/-- The Interval Merger's single piece of state (spec §4.2): the optional
open interval. -/
structure OpenInt where
  app : String
  title : String
  idle : Bool
  start : Nat
  lastSeen : Nat
deriving DecidableEq, Repr

/-- A closed `Activity` record (spec §3), as emitted by the merger. -/
structure MActivity where
  app : String
  title : String
  idle : Bool
  startTime : Nat
  endTime : Nat
deriving DecidableEq, Repr

/-- Closing an open interval: `end_time = last_seen_time`, never the
closing sample's own timestamp (spec §4.2). -/
def closeInt (o : OpenInt) : MActivity :=
  ⟨o.app, o.title, o.idle, o.start, o.lastSeen⟩

/-- An open interval freshly seeded from sample `s` (spec §4.2). -/
def openFrom (s : Sample) : OpenInt :=
  ⟨s.app, s.title, s.idle, s.ts, s.ts⟩

/-- Modelled from the spec: the Interval Merger transition of §4.2 (the
Rust backend is absent from the repository snapshot).  On sample `s`:
no open interval opens one; a gap beyond `maxGap` closes at `lastSeen` and
reopens from `s`; same application and idle flag extends (recording the
newest title); otherwise close at `lastSeen` and reopen from `s`.
Returns the new state and the list of activities emitted by this step. -/
def mergeStep (maxGap : Nat) (st : Option OpenInt) (s : Sample) :
    Option OpenInt × List MActivity :=
  match st with
  | none => (some (openFrom s), [])
  | some o =>
    if maxGap < s.ts - o.lastSeen then
      (some (openFrom s), [closeInt o])
    else if s.app = o.app ∧ s.idle = o.idle then
      (some { o with lastSeen := s.ts, title := s.title }, [])
    else
      (some (openFrom s), [closeInt o])

/-- Modelled from the spec: feeding a sample stream through `mergeStep`
and flushing the final open interval at shutdown (spec §4.1/4.2). -/
def runAux (maxGap : Nat) (st : Option OpenInt) : List Sample → List MActivity
  | [] =>
    match st with
    | none => []
    | some o => [closeInt o]
  | s :: rest =>
    let step := mergeStep maxGap st s
    step.2 ++ runAux maxGap step.1 rest

/-- Modelled from the spec: the full merger run from the empty state,
including the shutdown flush. -/
def runMerger (maxGap : Nat) (samples : List Sample) : List MActivity :=
  runAux maxGap none samples

/-- Emitted activities form a chain: every activity starts no later than it
ends, and ends no later than the next one starts. -/
def Chained : List MActivity → Prop
  | [] => True
  | [a] => a.startTime ≤ a.endTime
  | a :: b :: rest => a.startTime ≤ a.endTime ∧ a.endTime ≤ b.startTime ∧ Chained (b :: rest)

instance : DecidablePred Chained := by
  intro l
  induction l with
  | nil => exact .isTrue trivial
  | cons a rest ih =>
    cases rest with
    | nil => exact inferInstanceAs (Decidable (_ ≤ _))
    | cons b r => exact @instDecidableAnd _ _ _ (@instDecidableAnd _ _ _ ih)

/-- Duration of a closed activity in the backend model: `end - start`. -/
def actDuration (a : MActivity) : Nat := a.endTime - a.startTime

/-- Modelled from the spec: one upsert of the Aggregator's group-by step
(§4.5 item 3) — add `d` seconds to the entry of application `k`, appending
a fresh entry on first sight. -/
def bumpTotal (k : String) (d : Nat) : List (String × Nat) → List (String × Nat)
  | [] => [(k, d)]
  | (k2, v) :: rest =>
    if k2 = k then (k2, v + d) :: rest else (k2, v) :: bumpTotal k d rest

/-- Modelled from the spec: grouping the range's activities by application
and summing durations into per-application `total_duration` (§4.5). -/
def perAppTotals : List MActivity → List (String × Nat)
  | [] => []
  | a :: rest => bumpTotal a.app (actDuration a) (perAppTotals rest)

/-- Modelled from the spec: the stats' `total_time`, the sum of the
durations of every activity in range (§4.5). -/
def totalTimeOf (acts : List MActivity) : Nat :=
  (acts.map actDuration).sum

/-- Modelled from the spec: the Aggregator's ranking order of §4.5 item 6 —
`total_duration` descending, ties broken by application name ascending. -/
def rankLe (a b : String × Nat) : Bool :=
  decide (b.2 < a.2) || (decide (a.2 = b.2) && decide (a.1 ≤ b.1))

/-- Modelled from the spec: the ranked per-application list of a stats
result (§4.5 item 6). -/
def rankedApps (acts : List MActivity) : List (String × Nat) :=
  sortOrd rankLe (perAppTotals acts)

/-- Modelled from the spec: `goal_percentage = round(productive_time /
total_time * 100)` when `total_time > 0`, else `0` (§4.5 item 5).  The
division is exact rational arithmetic, so the zero guard is the only thing
standing between the caller and an undefined ratio. -/
def goalPercentage (productive total : Nat) : ℤ :=
  if 0 < total then round ((productive : ℚ) / (total : ℚ) * 100) else 0

/-- Modelled from the spec: the Store's persisted state (§ 3, §4.3) —
activity rows, categories, and app-to-category mappings. -/
structure StoreState where
  activities : List MActivity
  categories : List SCategory
  appCategories : List (String × String)
deriving DecidableEq, Repr

/-- Modelled from the spec: `delete_category(id)` removes the category and
cascades removal of the `AppCategory` mappings that reference it, touching
no `Activity` row (§4.4, §3). -/
def deleteCategory (st : StoreState) (id : String) : StoreState :=
  { st with
    categories := st.categories.filter fun c => c.id ≠ id
    appCategories := st.appCategories.filter fun p => p.2 ≠ id }

/-- Modelled from the spec: `uncategorized_applications()` — application
names seen in stored activities that have no `AppCategory` mapping (§4.3). -/
def uncategorizedApps (st : StoreState) : List String :=
  ((st.activities.map fun a => a.app).dedup).filter fun n =>
    ¬ st.appCategories.any fun p => p.1 = n

/-- Membership is preserved by stable insertion. -/
theorem mem_insOrd (le : α → α → Bool) (x a : α) (l : List α) :
    a ∈ insOrd le x l ↔ a = x ∨ a ∈ l := by
  induction l with
  | nil => simp [insOrd]
  | cons y ys ih =>
    cases hle : le x y
    · simp [insOrd, hle, ih]; tauto
    · simp [insOrd, hle, ih]

/-- Stable insertion permutes to consing. -/
theorem perm_insOrd (le : α → α → Bool) (x : α) (l : List α) :
    (insOrd le x l).Perm (x :: l) := by
  induction l with
  | nil => simp [insOrd]
  | cons y ys ih =>
    cases hle : le x y
    · simpa [insOrd, hle] using (ih.cons y).trans (List.Perm.swap x y ys)
    · simp [insOrd, hle]

/-- The stable sort permutes its input. -/
theorem perm_sortOrd (le : α → α → Bool) (l : List α) :
    (sortOrd le l).Perm l := by
  induction l with
  | nil => simp [sortOrd]
  | cons x xs ih => exact (perm_insOrd le x (sortOrd le xs)).trans (ih.cons x)

/-- Stable insertion into an ordered list stays ordered, for any total and
transitive boolean order. -/
theorem pairwise_insOrd (le : α → α → Bool)
    (htot : ∀ a b, le a b = false → le b a = true)
    (htrans : ∀ a b c, le a b = true → le b c = true → le a c = true)
    (x : α) (l : List α) (h : l.Pairwise fun a b => le a b = true) :
    (insOrd le x l).Pairwise fun a b => le a b = true := by
  induction l with
  | nil => simp [insOrd]
  | cons y ys ih =>
    rcases List.pairwise_cons.mp h with ⟨hy, hys⟩
    cases hle : le x y
    · have : (y :: insOrd le x ys).Pairwise fun a b => le a b = true := by
        refine List.pairwise_cons.mpr ⟨?_, ih hys⟩
        intro z hz
        rcases (mem_insOrd le x z ys).mp hz with hzx | hz
        · rw [hzx]; exact htot x y hle
        · exact hy z hz
      simpa [insOrd, hle] using this
    · have : (x :: y :: ys).Pairwise fun a b => le a b = true := by
        refine List.pairwise_cons.mpr ⟨?_, h⟩
        intro z hz
        rcases List.mem_cons.mp hz with rfl | hz
        · exact hle
        · exact htrans x y z hle (hy z hz)
      simpa [insOrd, hle] using this

/-- The stable sort produces an ordered list, for any total and transitive
boolean order. -/
theorem pairwise_sortOrd (le : α → α → Bool)
    (htot : ∀ a b, le a b = false → le b a = true)
    (htrans : ∀ a b c, le a b = true → le b c = true → le a c = true)
    (l : List α) :
    (sortOrd le l).Pairwise fun a b => le a b = true := by
  induction l with
  | nil => simp [sortOrd]
  | cons x xs ih => exact pairwise_insOrd le htot htrans x (sortOrd le xs) ih

/-- The comparator of the Analytics sort is total. -/
theorem jsCatLe_total (a b : CategoryAnalytics) :
    jsCatLe a b = false → jsCatLe b a = true := by
  simp [jsCatLe]; omega

/-- The comparator of the Analytics sort is transitive. -/
theorem jsCatLe_trans (a b c : CategoryAnalytics) :
    jsCatLe a b = true → jsCatLe b c = true → jsCatLe a c = true := by
  simp [jsCatLe]; omega

/-- The ranking order of the modelled Aggregator is total. -/
theorem rankLe_total (a b : String × Nat) :
    rankLe a b = false → rankLe b a = true := by
  simp only [rankLe, Bool.or_eq_false_iff, Bool.or_eq_true, Bool.and_eq_false_iff,
    Bool.and_eq_true, decide_eq_false_iff_not, decide_eq_true_eq, not_lt]
  intro ⟨h1, h2⟩
  rcases Nat.lt_or_ge a.2 b.2 with hlt | hge
  · exact Or.inl hlt
  · have heq : a.2 = b.2 := le_antisymm h1 hge
    rcases h2 with h2 | h2
    · exact absurd heq h2
    · exact Or.inr ⟨heq.symm, le_of_not_le h2⟩

/-- The ranking order of the modelled Aggregator is transitive. -/
theorem rankLe_trans (a b c : String × Nat) :
    rankLe a b = true → rankLe b c = true → rankLe a c = true := by
  simp only [rankLe, Bool.or_eq_true, Bool.and_eq_true, decide_eq_true_eq]
  rintro (hab | ⟨hab, hab2⟩) (hbc | ⟨hbc, hbc2⟩)
  · exact Or.inl (hbc.trans hab)
  · exact Or.inl (by omega)
  · exact Or.inl (by omega)
  · exact Or.inr ⟨hab.trans hbc, le_trans hab2 hbc2⟩

/-- Upserting a duration into the category map grows the map's total by
exactly that duration. -/
theorem sum_addToMap (c : TCategory) (d : Nat) (m : List CategoryAnalytics) :
    ((addToMap c d m).map fun e => e.totalTime).sum
      = (m.map fun e => e.totalTime).sum + d := by
  induction m with
  | nil => simp [addToMap]
  | cons e rest ih =>
    by_cases h : e.name = c.name
    · simp [addToMap, h]; omega
    · simp [addToMap, h, ih]; omega

/-- The running `totalTime` of the `forEach` loop accumulates exactly the
durations of the applications that carry a category. -/
theorem processApps_total (apps : List AppStat) (m : List CategoryAnalytics) (tot : Nat) :
    (processApps (m, tot) apps).2
      = tot + ((apps.filter fun a => a.category.isSome).map fun a => a.total_duration).sum := by
  induction apps generalizing m tot with
  | nil => simp [processApps]
  | cons app rest ih =>
    cases hc : app.category with
    | none => simp [processApps, hc, ih]
    | some c => simp [processApps, hc, ih]; omega

/-- Each categorized duration lands in the category map and in the running
total alike, so the two stay in lock-step. -/
theorem processApps_mapSum (apps : List AppStat) (m : List CategoryAnalytics) (tot : Nat) :
    ((processApps (m, tot) apps).1.map fun e => e.totalTime).sum + tot
      = (m.map fun e => e.totalTime).sum + (processApps (m, tot) apps).2 := by
  induction apps generalizing m tot with
  | nil => simp [processApps]
  | cons app rest ih =>
    cases hc : app.category with
    | none => simp [processApps, hc, ih]
    | some c =>
      simp only [processApps, hc]
      have := ih (addToMap c app.total_duration m) (tot + app.total_duration)
      rw [sum_addToMap] at this
      omega

/-- Computing percentages leaves every entry's `totalTime` in place. -/
theorem totalTime_withPercentages (tot : Nat) (m : List CategoryAnalytics) :
    (withPercentages tot m).map (fun e => e.totalTime) = m.map fun e => e.totalTime := by
  simp [withPercentages]

/-- The Analytics sort leaves the multiset of category totals unchanged. -/
theorem sum_sortCategories (m : List CategoryAnalytics) :
    ((sortCategories m).map fun e => e.totalTime).sum = (m.map fun e => e.totalTime).sum := by
  exact ((perm_sortOrd jsCatLe m).map fun e => e.totalTime).sum_eq

/-- Inserting an entry whose `totalTime` is `v` under the Analytics
comparator passes only entries with a strictly larger `totalTime`, so the
`totalTime = v` fiber gains the new entry at its front. -/
theorem filter_insOrd_eq (x : CategoryAnalytics) (l : List CategoryAnalytics) (v : Nat)
    (h : x.totalTime = v) :
    (insOrd jsCatLe x l).filter (fun e => e.totalTime = v)
      = x :: l.filter fun e => e.totalTime = v := by
  induction l with
  | nil => simp [insOrd, h]
  | cons y ys ih =>
    cases hle : jsCatLe x y
    · have hy : ¬ y.totalTime = v := by
        simp [jsCatLe] at hle; omega
      simp [insOrd, hle, List.filter, hy, ih]
    · simp [insOrd, hle, List.filter, h]

/-- Inserting an entry whose `totalTime` differs from `v` leaves the
`totalTime = v` fiber untouched. -/
theorem filter_insOrd_ne (x : CategoryAnalytics) (l : List CategoryAnalytics) (v : Nat)
    (h : ¬ x.totalTime = v) :
    (insOrd jsCatLe x l).filter (fun e => e.totalTime = v)
      = l.filter fun e => e.totalTime = v := by
  induction l with
  | nil => simp [insOrd, h]
  | cons y ys ih =>
    cases hle : jsCatLe x y
    · simp [insOrd, hle, List.filter, ih]
    · simp [insOrd, hle, List.filter, h]

/-- Stability of the Analytics sort: within every class of equal
`totalTime`, the sorted list keeps the input order unchanged. -/
theorem stable_sortCategories (l : List CategoryAnalytics) (v : Nat) :
    (sortCategories l).filter (fun e => e.totalTime = v)
      = l.filter fun e => e.totalTime = v := by
  induction l with
  | nil => simp [sortCategories, sortOrd]
  | cons x xs ih =>
    simp only [sortCategories, sortOrd] at ih ⊢
    by_cases h : x.totalTime = v
    · rw [filter_insOrd_eq x _ v h, ih]
      simp [List.filter, h]
    · rw [filter_insOrd_ne x _ v h, ih]
      simp [List.filter, h]

/-- Group-by upsert of the modelled Aggregator grows the grand total by the
inserted duration. -/
theorem sum_bumpTotal (k : String) (d : Nat) (m : List (String × Nat)) :
    ((bumpTotal k d m).map fun p => p.2).sum = (m.map fun p => p.2).sum + d := by
  induction m with
  | nil => simp [bumpTotal]
  | cons p rest ih =>
    by_cases h : p.1 = k
    · simp [bumpTotal, h]; omega
    · simp [bumpTotal, h, ih]; omega

/-- The per-application totals of the modelled Aggregator partition the
activities' durations: their sum is the whole range's duration sum. -/
theorem sum_perAppTotals (acts : List MActivity) :
    ((perAppTotals acts).map fun p => p.2).sum = totalTimeOf acts := by
  induction acts with
  | nil => simp [perAppTotals, totalTimeOf]
  | cons a rest ih =>
    simp only [perAppTotals, totalTimeOf, List.map_cons, List.sum_cons] at ih ⊢
    rw [sum_bumpTotal, ih]
    omega

/-- Prepending a valid activity that ends before the next start keeps the
chain property. -/
theorem chained_cons (a : MActivity) (l : List MActivity)
    (ha : a.startTime ≤ a.endTime) (hl : Chained l)
    (hhead : ∀ b, l.head? = some b → a.endTime ≤ b.startTime) : Chained (a :: l) := by
  cases l with
  | nil => exact ha
  | cons b r => exact ⟨ha, hhead b rfl, hl⟩

/-- Every activity of a chain is temporally valid. -/
theorem chained_valid (l : List MActivity) (h : Chained l) :
    ∀ a ∈ l, a.startTime ≤ a.endTime := by
  induction l with
  | nil => simp
  | cons x t ih =>
    cases t with
    | nil =>
      intro a ha
      rw [List.mem_singleton] at ha
      subst ha; exact h
    | cons y r =>
      obtain ⟨hx, _, ht⟩ := h
      intro a ha
      rcases List.mem_cons.mp ha with rfl | ha
      · exact hx
      · exact ih ht a ha

/-- The head of a chain ends before every later activity starts. -/
theorem chained_head_le (x : MActivity) (t : List MActivity) (h : Chained (x :: t)) :
    ∀ b ∈ t, x.endTime ≤ b.startTime := by
  induction t generalizing x with
  | nil => simp
  | cons y r ih =>
    obtain ⟨_, hxy, ht⟩ := h
    intro b hb
    rcases List.mem_cons.mp hb with rfl | hb
    · exact hxy
    · have hy := ih y ht b hb
      have hyv : y.startTime ≤ y.endTime := chained_valid _ ht y (List.mem_cons_self y r)
      omega

/-- A chain is pairwise non-overlapping: every activity ends no later than
every later activity starts. -/
theorem chained_pairwise (l : List MActivity) (h : Chained l) :
    l.Pairwise fun a b => a.endTime ≤ b.startTime := by
  induction l with
  | nil => simp
  | cons x t ih =>
    refine List.pairwise_cons.mpr ⟨chained_head_le x t h, ih ?_⟩
    cases t with
    | nil => trivial
    | cons y r => exact h.2.2

/-- A chain is ordered by start time. -/
theorem chained_pairwise_start (l : List MActivity) (h : Chained l) :
    l.Pairwise fun a b => a.startTime ≤ b.startTime := by
  refine (chained_pairwise l h).imp_of_mem ?_
  intro a b ha _ hab
  exact le_trans (chained_valid l h a ha) hab

/-- Invariant of the modelled merger: run from a well-formed open interval
over non-decreasing samples, the emitted activities form a chain starting
no earlier than the open interval's start. -/
theorem runAux_chain (maxGap : Nat) (samples : List Sample) :
    ∀ o : OpenInt, o.start ≤ o.lastSeen →
    (∀ s, samples.head? = some s → o.lastSeen ≤ s.ts) →
    samples.Chain' (fun a b => a.ts ≤ b.ts) →
    Chained (runAux maxGap (some o) samples)
    ∧ ∀ a, (runAux maxGap (some o) samples).head? = some a → o.start ≤ a.startTime := by
  induction samples with
  | nil =>
    intro o h1 _ _
    refine ⟨h1, ?_⟩
    intro a ha
    simp [runAux] at ha
    subst ha; exact le_refl _
  | cons s rest ih =>
    intro o h1 h2 h3
    have hstep : o.lastSeen ≤ s.ts := h2 s rfl
    obtain ⟨hhead, hrest⟩ := List.chain'_cons'.mp h3
    have hnext : ∀ s2, rest.head? = some s2 → s.ts ≤ s2.ts := by
      intro s2 hs2; exact hhead s2 hs2
    by_cases hgap : maxGap < s.ts - o.lastSeen
    · have ihc := ih (openFrom s) (le_refl _) hnext hrest
      have hrun : runAux maxGap (some o) (s :: rest)
          = closeInt o :: runAux maxGap (some (openFrom s)) rest := by
        simp [runAux, mergeStep, hgap]
      rw [hrun]
      constructor
      · refine chained_cons _ _ h1 ihc.1 ?_
        intro b hb
        have := ihc.2 b hb
        simp [openFrom] at this
        simp [closeInt]
        omega
      · intro a ha
        simp at ha
        rw [← ha]
        exact le_refl _
    · by_cases hsame : s.app = o.app ∧ s.idle = o.idle
      · have hrun : runAux maxGap (some o) (s :: rest)
            = runAux maxGap (some { o with lastSeen := s.ts, title := s.title }) rest := by
          simp [runAux, mergeStep, hgap, hsame]
        rw [hrun]
        have ihc := ih { o with lastSeen := s.ts, title := s.title }
          (le_trans h1 hstep) hnext hrest
        exact ⟨ihc.1, fun a ha => ihc.2 a ha⟩
      · have ihc := ih (openFrom s) (le_refl _) hnext hrest
        have hrun : runAux maxGap (some o) (s :: rest)
            = closeInt o :: runAux maxGap (some (openFrom s)) rest := by
          simp [runAux, mergeStep, hgap, hsame]
        rw [hrun]
        constructor
        · refine chained_cons _ _ h1 ihc.1 ?_
          intro b hb
          have := ihc.2 b hb
          simp [openFrom] at this
          simp [closeInt]
          omega
        · intro a ha
          simp at ha
          rw [← ha]
          exact le_refl _

/-- The full modelled merger run over non-decreasing samples emits a chain. -/
theorem runMerger_chained (maxGap : Nat) (samples : List Sample)
    (h : samples.Chain' fun a b => a.ts ≤ b.ts) :
    Chained (runMerger maxGap samples) := by
  cases samples with
  | nil => trivial
  | cons s rest =>
    obtain ⟨hhead, hrest⟩ := List.chain'_cons'.mp h
    have hrun : runMerger maxGap (s :: rest)
        = runAux maxGap (some (openFrom s)) rest := by
      simp [runMerger, runAux, mergeStep]
    rw [hrun]
    exact (runAux_chain maxGap rest (openFrom s) (le_refl _)
      (fun s2 hs2 => hhead s2 hs2) hrest).1

/-- C9: `isUnproductiveApp(name)` returns true exactly for the seven
hard-coded application names, case-sensitively, independent of any
user-assigned category. -/
theorem c9_isUnproductiveApp_iff (n : String) :
    isUnproductiveApp n = true ↔
      n = "Finder" ∨ n = "System Settings" ∨ n = "System Preferences"
      ∨ n = "Notification Center" ∨ n = "Dock" ∨ n = "Spotlight" ∨ n = "Menu Bar" := by
  simp [isUnproductiveApp, unproductiveApps]

/-- C10: the `handleUpdateCategory` local-state update keeps the list
length, replaces exactly the entries whose id matches the updated
category's id, and leaves every other entry unchanged in place. -/
theorem c10_updateCategories (l : List SCategory) (c : SCategory) :
    (updateCategories l c).length = l.length
    ∧ ∀ i : Nat, (updateCategories l c)[i]? =
        Option.map (fun x => if x.id = c.id then c else x) l[i]? := by
  refine ⟨by simp [updateCategories], ?_⟩
  intro i
  simp [updateCategories]

/-- C6: whenever a sample arrives more than `maxGap` after the open
interval's `lastSeen`, the merger closes the interval with
`end_time = last_seen_time` (not the sample's time), so the closed
activity's duration excludes the gap, and reopens from the sample. -/
theorem c6_gap_closes_at_lastSeen (maxGap : Nat) (o : OpenInt) (s : Sample)
    (hgap : maxGap < s.ts - o.lastSeen) :
    (mergeStep maxGap (some o) s).2 = [closeInt o]
    ∧ (closeInt o).endTime = o.lastSeen
    ∧ actDuration (closeInt o) = o.lastSeen - o.start
    ∧ (mergeStep maxGap (some o) s).1 = some (openFrom s) := by
  refine ⟨?_, rfl, rfl, ?_⟩ <;> simp [mergeStep, hgap]

/-- Witness for C6: a four-hour sampler gap against a five-minute maximum
closes at `lastSeen = 1000`, excluding the gap (times in seconds here,
scaled arbitrarily — the merger is unit-agnostic). -/
theorem c6_witness :
    (300 : Nat) < (15400 : Nat) - (1000 : Nat)
    ∧ ((mergeStep 300 (some ⟨"A", "w", false, 0, 1000⟩) ⟨15400, "A", "w", false⟩).2
        = [closeInt ⟨"A", "w", false, 0, 1000⟩]
      ∧ (closeInt (⟨"A", "w", false, 0, 1000⟩ : OpenInt)).endTime = 1000
      ∧ actDuration (closeInt ⟨"A", "w", false, 0, 1000⟩) = 1000 - 0
      ∧ (mergeStep 300 (some ⟨"A", "w", false, 0, 1000⟩) ⟨15400, "A", "w", false⟩).1
          = some (openFrom ⟨15400, "A", "w", false⟩)) :=
  ⟨by decide, c6_gap_closes_at_lastSeen 300 ⟨"A", "w", false, 0, 1000⟩
    ⟨15400, "A", "w", false⟩ (by decide)⟩

/-- C5 (amended): over any sample stream with non-decreasing timestamps the
modelled merger emits a chain — every activity satisfies
`start_time ≤ end_time`, activities are pairwise non-overlapping, and they
are ordered by `start_time`; `end_time = start_time` arises for any
single-sample interval, not only the one closed at shutdown. -/
theorem c5_merger_chain (maxGap : Nat) (samples : List Sample)
    (h : samples.Chain' fun a b => a.ts ≤ b.ts) :
    Chained (runMerger maxGap samples)
    ∧ (∀ a ∈ runMerger maxGap samples, a.startTime ≤ a.endTime)
    ∧ (runMerger maxGap samples).Pairwise (fun a b => a.endTime ≤ b.startTime)
    ∧ (runMerger maxGap samples).Pairwise fun a b => a.startTime ≤ b.startTime := by
  have hc := runMerger_chained maxGap samples h
  exact ⟨hc, chained_valid _ hc, chained_pairwise _ hc, chained_pairwise_start _ hc⟩

/-- Witness for C5: a concrete three-sample stream with an extension and an
application switch. -/
theorem c5_witness :
    ([⟨0, "A", "w", false⟩, ⟨10, "A", "w", false⟩, ⟨20, "B", "w", false⟩]
      : List Sample).Chain' (fun a b => a.ts ≤ b.ts)
    ∧ (Chained (runMerger 300 [⟨0, "A", "w", false⟩, ⟨10, "A", "w", false⟩, ⟨20, "B", "w", false⟩])
      ∧ (∀ a ∈ runMerger 300 [⟨0, "A", "w", false⟩, ⟨10, "A", "w", false⟩, ⟨20, "B", "w", false⟩],
          a.startTime ≤ a.endTime)
      ∧ (runMerger 300 [⟨0, "A", "w", false⟩, ⟨10, "A", "w", false⟩, ⟨20, "B", "w", false⟩]).Pairwise
          (fun a b => a.endTime ≤ b.startTime)
      ∧ (runMerger 300 [⟨0, "A", "w", false⟩, ⟨10, "A", "w", false⟩, ⟨20, "B", "w", false⟩]).Pairwise
          fun a b => a.startTime ≤ b.startTime) :=
  ⟨by simp [List.chain'_cons], c5_merger_chain 300 _ (by simp [List.chain'_cons])⟩

/-- Counterexample for C5 as stated: a single-sample interval closed by an
application switch — not by shutdown — already has `end_time = start_time`:
the step emission (second component) is produced before any shutdown
flush, and the full run contains the zero-length activity in non-final
position as well. -/
theorem c5_counterexample :
    mergeStep 300 (some ⟨"A", "w", false, 0, 0⟩) ⟨10, "B", "w", false⟩
      = (some ⟨"B", "w", false, 10, 10⟩, [⟨"A", "w", false, 0, 0⟩])
    ∧ runMerger 300 [⟨0, "A", "w", false⟩, ⟨10, "B", "w", false⟩]
      = [⟨"A", "w", false, 0, 0⟩, ⟨"B", "w", false, 10, 10⟩] := by
  exact ⟨rfl, rfl⟩

/-- C7 (amended): at millisecond resolution the frontend's day range
`[getDayStart d, getDayEnd d]`, read inclusively, covers exactly the
instants from local midnight up to but excluding the next midnight; under
the spec's inclusive-exclusive reading with `to = getDayEnd d`, however,
the last millisecond of the day is excluded, since `getDayEnd` is the last
millisecond itself, which does sit strictly before the next midnight. -/
theorem c7_day_range (d t : Nat) :
    ((getDayStart d ≤ t ∧ t ≤ getDayEnd d)
        ↔ inRangeIE (getDayStart d) (getDayStart d + msPerDay) t)
    ∧ ¬ inRangeIE (getDayStart d) (getDayEnd d) (getDayEnd d)
    ∧ getDayEnd d < getDayStart d + msPerDay := by
  unfold inRangeIE getDayEnd getDayStart msPerDay
  omega

/-- Counterexample for C7 as stated: with `[from, to)` semantics and
`to = getDayEnd d`, the instant in the last millisecond of the day — which
the claim says belongs to the range — is not in the range. -/
theorem c7_counterexample :
    ¬ inRangeIE (getDayStart 1700000000000) (getDayEnd 1700000000000)
        (getDayEnd 1700000000000) := by
  decide

/-- C8 (amended): the two `formatDuration` copies in the App frontends
agree on every whole-second duration, and the `timeUtils` copy agrees with
them exactly on durations of at least one hour; below one hour the
`timeUtils` copy renders seconds (`Mm Ss` / `Ss`) while the App copies
render minutes only. -/
theorem c8_format_agree (s : Nat) :
    formatDurationApp0 s = formatDurationAppTsx s
    ∧ (3600 ≤ s → formatDurationUtils s = formatDurationApp0 s) := by
  refine ⟨rfl, ?_⟩
  intro h
  have hh : 0 < s / 3600 := Nat.div_pos h (by norm_num)
  simp [formatDurationUtils, formatDurationApp0, hh]

/-- Witness for C8 (amended): two hours render identically in all copies. -/
theorem c8_witness :
    (3600 : Nat) ≤ 7200 ∧ formatDurationUtils 7200 = formatDurationApp0 7200 :=
  ⟨by decide, (c8_format_agree 7200).2 (by decide)⟩

/-- Counterexample for C8 as stated: at zero seconds the `timeUtils` copy
renders `0s` while the App copies render `0m`. -/
theorem c8_counterexample :
    formatDurationUtils 0 = "0s" ∧ formatDurationApp0 0 = "0m"
    ∧ formatDurationUtils 0 ≠ formatDurationApp0 0 := by
  exact ⟨rfl, rfl, by decide⟩

/-- C4: deleting a category removes it and every `AppCategory` mapping
referencing it, leaves all activity rows unchanged, and any application
seen in stored activities whose only mapping pointed at the deleted
category shows up in a subsequent `uncategorized_applications()`; the
frontend handler's local state drops exactly the deleted category. -/
theorem c4_delete_category (st : StoreState) (app id : String)
    (happ : app ∈ st.activities.map fun a => a.app)
    (_hmap : (app, id) ∈ st.appCategories)
    (huniq : ∀ cid, (app, cid) ∈ st.appCategories → cid = id) :
    (deleteCategory st id).activities = st.activities
    ∧ (∀ c ∈ (deleteCategory st id).categories, c.id ≠ id)
    ∧ (∀ p ∈ (deleteCategory st id).appCategories, p.2 ≠ id)
    ∧ app ∈ uncategorizedApps (deleteCategory st id)
    ∧ ∀ (cats : List SCategory) (c : SCategory),
        c ∈ deleteCategoryLocal cats id ↔ c ∈ cats ∧ c.id ≠ id := by
  refine ⟨rfl, ?_, ?_, ?_, ?_⟩
  · intro c hc
    simp [deleteCategory, List.mem_filter] at hc
    exact hc.2
  · intro p hp
    simp [deleteCategory, List.mem_filter] at hp
    exact hp.2
  · simp only [uncategorizedApps, deleteCategory, List.mem_filter, List.mem_dedup,
      decide_eq_true_eq, List.any_eq_true, not_exists, not_and]
    refine ⟨happ, ?_⟩
    intro p hp hpa
    obtain ⟨hpmem, hpne⟩ := hp
    have : (app, p.2) ∈ st.appCategories := by
      have : p = (app, p.2) := by
        cases p; simp_all
      rw [← this]; exact hpmem
    exact hpne (huniq p.2 this)
  · intro cats c
    simp [deleteCategoryLocal, List.mem_filter]

/-- Witness store for C4: one activity for application `X`, one category,
and the single mapping `X ↦ cat1`. -/
def c4Store : StoreState :=
  ⟨[⟨"X", "t", false, 0, 10⟩], [⟨"cat1", "Work", "g", true⟩], [("X", "cat1")]⟩

/-- Witness for C4: deleting `cat1` from the concrete store keeps the
activity row, drops the category and the mapping, and `X` becomes
uncategorized. -/
theorem c4_witness :
    (deleteCategory c4Store "cat1").activities = c4Store.activities
    ∧ (∀ c ∈ (deleteCategory c4Store "cat1").categories, c.id ≠ "cat1")
    ∧ (∀ p ∈ (deleteCategory c4Store "cat1").appCategories, p.2 ≠ "cat1")
    ∧ "X" ∈ uncategorizedApps (deleteCategory c4Store "cat1")
    ∧ ∀ (cats : List SCategory) (c : SCategory),
        c ∈ deleteCategoryLocal cats "cat1" ↔ c ∈ cats ∧ c.id ≠ "cat1" :=
  c4_delete_category c4Store "X" "cat1" (by decide) (by decide)
    (by intro cid h; simpa [c4Store] using h)

/-- C2 (amended): in the modelled Aggregator the (ranked) per-application
`total_duration` values sum exactly to `total_time`; in the Analytics view
the accumulated `totalTime` used for percentages is the sum over exactly
the `top_applications` entries carrying a category (uncategorized entries
are excluded from it), and the per-category totals sum to it exactly. -/
theorem c2_sum_property (acts : List MActivity) (apps : List AppStat) :
    ((rankedApps acts).map fun p => p.2).sum = totalTimeOf acts
    ∧ ((perAppTotals acts).map fun p => p.2).sum = totalTimeOf acts
    ∧ analyticsTotal apps
        = ((apps.filter fun a => a.category.isSome).map fun a => a.total_duration).sum
    ∧ ((categoryStats apps).map fun e => e.totalTime).sum = analyticsTotal apps := by
  refine ⟨?_, sum_perAppTotals acts, ?_, ?_⟩
  · rw [rankedApps, ((perm_sortOrd rankLe (perAppTotals acts)).map fun p => p.2).sum_eq]
    exact sum_perAppTotals acts
  · simpa [analyticsTotal] using processApps_total apps [] 0
  · show ((sortCategories (withPercentages _ _)).map fun e => e.totalTime).sum = _
    rw [sum_sortCategories, totalTime_withPercentages]
    have := processApps_mapSum apps [] 0
    simpa [analyticsTotal] using this

/-- Counterexample for C2 as stated: with one uncategorized application of
5 seconds and one categorized of 3 seconds, the Analytics denominator is
3, not the 8-second sum over all applications — the uncategorized
application's duration is excluded. -/
theorem c2_counterexample :
    analyticsTotal [⟨"u", 5, none⟩, ⟨"c", 3, some ⟨"Work", "g", true⟩⟩] = 3
    ∧ (([⟨"u", 5, none⟩, ⟨"c", 3, some ⟨"Work", "g", true⟩⟩]
        : List AppStat).map fun a => a.total_duration).sum = 8
    ∧ (3 : Nat) ≠ 8 := by
  refine ⟨?_, ?_, by decide⟩ <;> decide

/-- C3 (amended): the Analytics category list is sorted by `totalTime`
descending, and entries with equal `totalTime` keep their relative order
from the unsorted map (insertion order of first appearance), which makes
the output a deterministic function of the input — but ties are not
re-ordered by name; the modelled Aggregator's ranked per-application list
is sorted by duration descending with ties by name ascending and is a
permutation of the per-application totals. -/
theorem c3_sort_order (apps : List AppStat) (acts : List MActivity) :
    ((categoryStats apps).Pairwise fun a b => b.totalTime ≤ a.totalTime)
    ∧ (∀ v : Nat, (categoryStats apps).filter (fun e => e.totalTime = v)
        = (withPercentages (analyticsTotal apps) (processApps ([], 0) apps).1).filter
            fun e => e.totalTime = v)
    ∧ ((rankedApps acts).Pairwise fun a b => b.2 < a.2 ∨ (a.2 = b.2 ∧ a.1 ≤ b.1))
    ∧ (rankedApps acts).Perm (perAppTotals acts) := by
  refine ⟨?_, ?_, ?_, perm_sortOrd rankLe (perAppTotals acts)⟩
  · have := pairwise_sortOrd jsCatLe jsCatLe_total jsCatLe_trans
      (withPercentages (analyticsTotal apps) (processApps ([], 0) apps).1)
    refine this.imp ?_
    intro a b hab
    simpa [jsCatLe] using hab
  · intro v
    exact stable_sortCategories (withPercentages (analyticsTotal apps) (processApps ([], 0) apps).1) v
  · have := pairwise_sortOrd rankLe rankLe_total rankLe_trans (perAppTotals acts)
    refine this.imp ?_
    intro a b hab
    simpa [rankLe] using hab

/-- Counterexample for C3 as stated: two categories with equal totals, the
one named `B` encountered first: the stable comparator keeps `B` before
`A`, violating the claimed name-ascending tie-break. -/
theorem c3_counterexample :
    categoryStats [⟨"app1", 100, some ⟨"B", "g", false⟩⟩, ⟨"app2", 100, some ⟨"A", "g", false⟩⟩]
      = [⟨"B", "g", 100, 50⟩, ⟨"A", "g", 100, 50⟩]
    ∧ ("A" : String) < "B" := by
  constructor
  · simp [categoryStats, processApps, addToMap, withPercentages, sortCategories,
      sortOrd, insOrd, jsCatLe]
    norm_num
  · rw [String.lt_iff_toList_lt]
    decide

/-- The guarded rounded ratio lies in `[0, 100]` whenever the numerator is
bounded by the denominator. -/
theorem goalPercentage_bounds (p t : Nat) (hpt : p ≤ t) :
    0 ≤ goalPercentage p t ∧ goalPercentage p t ≤ 100 := by
  by_cases ht : 0 < t
  · have htq : (0 : ℚ) < (t : ℚ) := by exact_mod_cast ht
    have h1 : (p : ℚ) / (t : ℚ) ≤ 1 := (div_le_one htq).mpr (by exact_mod_cast hpt)
    have hx0 : (0 : ℚ) ≤ (p : ℚ) / (t : ℚ) * 100 := by positivity
    have hx1 : (p : ℚ) / (t : ℚ) * 100 ≤ 100 := by nlinarith
    rw [goalPercentage, if_pos ht]
    constructor
    · rw [round_eq]
      apply Int.floor_nonneg.mpr
      linarith
    · have h2 := round_le_add_half ((p : ℚ) / (t : ℚ) * 100)
      have h3 : ((round ((p : ℚ) / (t : ℚ) * 100) : ℤ) : ℚ) < 101 := by linarith
      have h4 : round ((p : ℚ) / (t : ℚ) * 100) < 101 := by exact_mod_cast h3
      omega
  · simp [goalPercentage, ht]

/-- Every entry of the final Analytics list carries the guarded unrounded
ratio as its percentage, and its total never exceeds the denominator. -/
theorem mem_categoryStats (apps : List AppStat) (e : CategoryAnalytics)
    (he : e ∈ categoryStats apps) :
    e.percentage = (if 0 < analyticsTotal apps
        then (e.totalTime : ℚ) / (analyticsTotal apps : ℚ) * 100 else 0)
    ∧ e.totalTime ≤ analyticsTotal apps := by
  have hsum : ((processApps ([], 0) apps).1.map fun x => x.totalTime).sum
      = analyticsTotal apps := by
    simpa [analyticsTotal] using processApps_mapSum apps [] 0
  have he2 : e ∈ withPercentages (analyticsTotal apps) (processApps ([], 0) apps).1 := by
    have hperm := perm_sortOrd jsCatLe
      (withPercentages (analyticsTotal apps) (processApps ([], 0) apps).1)
    exact hperm.mem_iff.mp he
  obtain ⟨cat, hcat, hceq⟩ := List.mem_map.mp he2
  have htt : e.totalTime = cat.totalTime := by rw [← hceq]
  have hpc : e.percentage = (if 0 < analyticsTotal apps
      then (cat.totalTime : ℚ) / (analyticsTotal apps : ℚ) * 100 else 0) := by
    rw [← hceq]
  refine ⟨by rw [hpc, htt], ?_⟩
  rw [htt, ← hsum]
  exact List.single_le_sum (by simp) _ (List.mem_map_of_mem (fun x => x.totalTime) hcat)

/-- C1 (amended): the modelled `goal_percentage` equals
`round(productive / total * 100)` under the `total > 0` guard, is `0` at
`total = 0`, and lies in `[0, 100]` whenever `productive ≤ total`; the
Analytics per-category percentage equals the exact, unrounded guarded
ratio `totalTime / total * 100` and likewise lies in `[0, 100]`; in both
cases the zero guard keeps division-by-zero away from the caller. -/
theorem c1_percentages (p t : Nat) (apps : List AppStat) :
    goalPercentage p 0 = 0
    ∧ (0 < t → goalPercentage p t = round ((p : ℚ) / (t : ℚ) * 100))
    ∧ (p ≤ t → 0 ≤ goalPercentage p t ∧ goalPercentage p t ≤ 100)
    ∧ ∀ e ∈ categoryStats apps,
        e.percentage = (if 0 < analyticsTotal apps
            then (e.totalTime : ℚ) / (analyticsTotal apps : ℚ) * 100 else 0)
        ∧ 0 ≤ e.percentage ∧ e.percentage ≤ 100 := by
  refine ⟨by simp [goalPercentage], fun h => by simp [goalPercentage, h],
    goalPercentage_bounds p t, ?_⟩
  intro e he
  obtain ⟨hp, hle⟩ := mem_categoryStats apps e he
  by_cases ht : 0 < analyticsTotal apps
  · have htq : (0 : ℚ) < (analyticsTotal apps : ℚ) := by exact_mod_cast ht
    have h1 : (e.totalTime : ℚ) / (analyticsTotal apps : ℚ) ≤ 1 :=
      (div_le_one htq).mpr (by exact_mod_cast hle)
    rw [if_pos ht] at hp
    refine ⟨by rw [hp, if_pos ht], ?_, ?_⟩
    · rw [hp]; positivity
    · rw [hp]; nlinarith
  · rw [if_neg ht] at hp
    exact ⟨by rw [hp, if_neg ht], by rw [hp], by rw [hp]; norm_num⟩

/-- Witness input for C1: a single categorized application of one second. -/
def c1Apps : List AppStat := [⟨"a", 1, some ⟨"Work", "g", true⟩⟩]

/-- Witness for C1 (amended): `goalPercentage 1 2 = round 50 = 50` with its
bounds, and the single Analytics entry carries exactly `100%`. -/
theorem c1_witness :
    goalPercentage 1 2 = round ((1 : ℚ) / (2 : ℚ) * 100)
    ∧ (0 ≤ goalPercentage 1 2 ∧ goalPercentage 1 2 ≤ 100)
    ∧ (⟨"Work", "g", 1, 100⟩ : CategoryAnalytics) ∈ categoryStats c1Apps
    ∧ ((⟨"Work", "g", 1, 100⟩ : CategoryAnalytics).percentage
        = (if 0 < analyticsTotal c1Apps
            then ((⟨"Work", "g", 1, 100⟩ : CategoryAnalytics).totalTime : ℚ)
              / (analyticsTotal c1Apps : ℚ) * 100 else 0)
      ∧ 0 ≤ (⟨"Work", "g", 1, 100⟩ : CategoryAnalytics).percentage
      ∧ (⟨"Work", "g", 1, 100⟩ : CategoryAnalytics).percentage ≤ 100) := by
  have hmem : (⟨"Work", "g", 1, 100⟩ : CategoryAnalytics) ∈ categoryStats c1Apps := by
    simp [c1Apps, categoryStats, processApps, addToMap, withPercentages,
      sortCategories, sortOrd, insOrd, analyticsTotal]
  exact ⟨(c1_percentages 1 2 c1Apps).2.1 (by decide),
    (c1_percentages 1 2 c1Apps).2.2.1 (by decide), hmem,
    (c1_percentages 1 2 c1Apps).2.2.2 _ hmem⟩

/-- Counterexample for C1 as stated: the Analytics percentage is not
rounded — a category holding 1 of 3 total seconds reports exactly `100/3`
percent, which differs from its rounding `33`. -/
theorem c1_counterexample :
    categoryStats [⟨"a1", 1, some ⟨"A", "g", false⟩⟩, ⟨"a2", 2, some ⟨"B", "h", false⟩⟩]
      = [⟨"B", "h", 2, (200 : ℚ) / 3⟩, ⟨"A", "g", 1, (100 : ℚ) / 3⟩]
    ∧ round ((100 : ℚ) / 3) = 33
    ∧ ((100 : ℚ) / 3) ≠ ((33 : ℤ) : ℚ) := by
  refine ⟨?_, ?_, by norm_num⟩
  · simp [categoryStats, processApps, addToMap, withPercentages, sortCategories,
      sortOrd, insOrd, jsCatLe]
    norm_num
  · rw [round_eq]
    norm_num
